import Mathlib

/-
Verification development for the surge disk-space tool.

The Rust sources are shallowly embedded: paths are character lists
(the Rust code compares paths through their UTF-8 string form), the
filesystem and platform environment (home directory, canonicalization,
existence, metadata) are explicit parameters, and every scanner or
validator is a pure Lean function mirroring the corresponding Rust
function statement by statement.
-/

namespace Surge

/-- Paths are modelled as their character sequence: the Rust code
performs all security-relevant comparisons on the `to_str()` form of a
path, so the character list carries exactly the compared data. -/
abbrev Path := List Char

/-! ### Stable insertion sort

Rust `Vec::sort_by` is a stable comparison sort.  All ordering claims
below only concern sortedness and the underlying multiset, both of
which are shared by every stable comparison sort, so we model
`sort_by` with an insertion sort over the comparator. -/

/-- Insert an element into a list, before the first element b with le a b. -/
def insertSorted (le : α → α → Bool) (a : α) : List α → List α
  | [] => [a]
  | b :: l => if le a b then a :: b :: l else b :: insertSorted le a l

/-- Model of Rust Vec sort_by with comparator le. -/
def sortBy (le : α → α → Bool) : List α → List α
  | [] => []
  | a :: l => insertSorted le a (sortBy le l)

/-! ### Order-preserving grouping

Both scanners that use a Rust HashMap (size groups and hash groups
in the duplicate scanner, directory sizes in the cleanup scanner)
only insert via entry(k).or_default().push(v) / += and then iterate.
HashMap iteration order is unspecified; we model it as an association
list in first-insertion key order, which is one admissible order and
does not affect any claim below. -/

/-- Model of map.entry(k).or_default().push(v) on an association list. -/
def insertGrouped [DecidableEq κ] (k : κ) (v : α) :
    List (κ × List α) → List (κ × List α)
  | [] => [(k, [v])]
  | (k', vs) :: m =>
    if k = k' then (k', vs ++ [v]) :: m else (k', vs) :: insertGrouped k v m

/-- Values stored under key k (empty when the key is absent). -/
def findValues [DecidableEq κ] (k : κ) : List (κ × List α) → List α
  | [] => []
  | (k', vs) :: m => if k = k' then vs else findValues k m

def groupPairsAux [DecidableEq κ] (m : List (κ × List α)) :
    List (κ × α) → List (κ × List α)
  | [] => m
  | (k, v) :: ps => groupPairsAux (insertGrouped k v m) ps

/-- Build the grouping of a list of key/value pairs, modelling the
HashMap-accumulation loops of the Rust scanners. -/
def groupPairs [DecidableEq κ] (ps : List (κ × α)) : List (κ × List α) :=
  groupPairsAux [] ps

/-- Keys of the grouping stay pairwise distinct. -/
def KeysNodup [DecidableEq κ] (m : List (κ × List α)) : Prop :=
  (m.map Prod.fst).Nodup

/-! ### Data model (src/models/mod.rs)

Timestamps are modelled as seconds since the epoch (Int): the Rust
code only ever compares them and subtracts them, which the integer
model captures exactly. -/

inductive CleanupCategory where
  | systemCaches
  | userCaches
  | logs
  | trash
  | downloads
  | developerCaches
  | browserData
  | applicationSupport
deriving DecidableEq

/-- CleanupCategory::all() from src/models/mod.rs. -/
def CleanupCategory.all : List CleanupCategory :=
  [.systemCaches, .userCaches, .logs, .trash, .downloads,
   .developerCaches, .browserData, .applicationSupport]

structure CleanableItem where
  path : Path
  size : Nat
  category : CleanupCategory
  modified : Int
  selected : Bool
deriving DecidableEq

structure LargeFileItem where
  path : Path
  size : Nat
  modified : Int
  accessed : Int
  age_days : Nat
  selected : Bool
deriving DecidableEq

structure DuplicateFile where
  path : Path
  size : Nat
  modified : Int
  selected : Bool
deriving DecidableEq

structure DuplicateGroup where
  hash : List Nat
  files : List DuplicateFile
  total_size : Nat
  duplicate_size : Nat
deriving DecidableEq

structure TreeMapItem where
  path : Path
  name : String
  size : Nat
  children : List TreeMapItem
  is_file : Bool

/-! ### Path safety validator (src/security/sanitizer.rs)

The validator consults the operating system for home-directory
resolution, canonicalization, existence and file ages; those are
gathered into an explicit environment record SanFS.  Paths in this
model are always valid UTF-8 (they are character lists) and metadata
reads of existing paths succeed, so the invalid-UTF-8 and
metadata-error branches of the Rust code cannot fire. -/

inductive ValidationError where
  | pathTraversal (p : Path)
  | blacklisted (p : Path)
  | doesNotExist (p : Path)
  | tooRecent (p : Path) (days : Nat)
  | notSafeToDelete (p : Path)
  | other (msg : String)
deriving DecidableEq

/-- PathSanitizer configuration fields. -/
structure PathSanitizer where
  min_age_days : Nat
  enforce_age_protection : Bool
deriving DecidableEq

/-- Environment supplied by the operating system: home directory,
canonicalization (None when the path does not exist), existence test,
parent path and the whole-day age of a path, i.e.
(now - modified).as_secs() / 86400. -/
structure SanFS where
  home : Option Path
  canonicalize : Path → Option Path
  fsExists : Path → Bool
  parent : Path → Option Path
  ageDays : Path → Nat

/-- Rust PathBuf::join of a base with a possibly absolute tail:
joining an absolute path replaces the base. -/
def joinPath (base : Path) (rest : Path) : Path :=
  match rest with
  | '/' :: _ => rest
  | _ => base ++ '/' :: rest

/-- PathSanitizer::expand_home. -/
def expand_home (fs : SanFS) (p : Path) : Except ValidationError Path :=
  if ("~/".toList).isPrefixOf p then
    match fs.home with
    | some h => .ok (joinPath h (p.drop 2))
    | none => .error (.other "Could not determine home directory")
  else if p = ("~".toList) then
    match fs.home with
    | some h => .ok h
    | none => .error (.other "Could not determine home directory")
  else .ok p

/-- PathSanitizer::check_path_traversal: reject a path whose string
form contains a parent-directory segment. -/
def check_path_traversal (p : Path) : Except ValidationError Unit :=
  if ("/../".toList) <:+: p ∨ ("/..".toList) <:+ p then
    .error (.pathTraversal p)
  else .ok ()

/-- PathSanitizer::check_blacklist: the loop over BLACKLISTED_PATHS,
each entry home-expanded, rejecting when the path equals the entry or
starts with the entry followed by a separator. -/
def check_blacklist (fs : SanFS) (p : Path) :
    List Path → Except ValidationError Unit
  | [] => .ok ()
  | e :: rest => do
    let be ← expand_home fs e
    if p = be ∨ (be ++ ['/']) <+: p then .error (.blacklisted p)
    else check_blacklist fs p rest

/-- PathSanitizer::check_age_protection: skipped for non-existent
paths, otherwise rejects a path younger than min_age_days. -/
def check_age_protection (s : PathSanitizer) (fs : SanFS) (p : Path) :
    Except ValidationError Unit :=
  if fs.fsExists p = false then .ok ()
  else if fs.ageDays p < s.min_age_days then
    .error (.tooRecent p (fs.ageDays p))
  else .ok ()

/-- Step 2 of PathSanitizer::sanitize_path: canonicalize, falling
back to the expanded path when the path does not exist but its parent
does, and failing with does-not-exist otherwise.  The error carries
the original path, as in the Rust code. -/
def canonicalize_step (fs : SanFS) (orig expanded : Path) :
    Except ValidationError Path :=
  match fs.canonicalize expanded with
  | some c => .ok c
  | none =>
    match fs.parent expanded with
    | some par =>
      if fs.fsExists par then .ok expanded
      else .error (.doesNotExist orig)
    | none => .error (.doesNotExist orig)

/-- Steps 1-2 of sanitize_path: the candidate path handed to the
traversal, blacklist and age checks. -/
def sanitize_candidate (fs : SanFS) (path : Path) :
    Except ValidationError Path := do
  let expanded ← expand_home fs path
  canonicalize_step fs path expanded

/-- PathSanitizer::sanitize_path over a given platform blacklist bl
(the cfg(target_os) selection of BLACKLISTED_PATHS). -/
def sanitize_path (s : PathSanitizer) (bl : List Path) (fs : SanFS)
    (path : Path) : Except ValidationError Path := do
  let canonical ← sanitize_candidate fs path
  check_path_traversal canonical
  check_blacklist fs canonical bl
  if s.enforce_age_protection then check_age_protection s fs canonical
  pure canonical

/-- PathSanitizer::is_safe_to_delete. -/
def is_safe_to_delete (s : PathSanitizer) (bl : List Path) (fs : SanFS)
    (path : Path) : Bool :=
  match sanitize_path s bl fs path with
  | .ok _ => true
  | .error _ => false

/-- BLACKLISTED_PATHS for macOS (src/security/blacklist.rs). -/
def macosBlacklistPaths : List Path :=
  [("/System".toList), ("/bin".toList), ("/sbin".toList),
   ("/usr/bin".toList), ("/usr/sbin".toList), ("/usr/lib".toList),
   ("/usr/libexec".toList), ("/usr/share".toList), ("/etc".toList),
   ("/dev".toList), ("/var".toList), ("/private/etc".toList),
   ("/private/var".toList), ("/Library/Apple".toList),
   ("/Library/Frameworks".toList), ("/Library/Extensions".toList),
   ("/System/Library".toList), ("/Applications/Utilities".toList),
   ("/Users".toList), ("/Volumes".toList), ("/Network".toList),
   ("/cores".toList), ("/boot".toList), ("/.vol".toList),
   ("/Preboot".toList), ("~/Library/Application Support".toList),
   ("~/Library/Preferences".toList), ("~/Library/Keychains".toList),
   ("~/Documents".toList), ("~/Desktop".toList), ("~/Pictures".toList),
   ("~/Music".toList), ("~/Movies".toList)]

/-- The home-expanded form of a blacklist entry when the home
directory is h: expand_home never fails in this case, and this is
the value it returns. -/
def expandedEntry (h : Path) (e : Path) : Path :=
  if ("~/".toList).isPrefixOf e then joinPath h (e.drop 2)
  else if e = ("~".toList) then h
  else e

/-- BLACKLISTED_PATHS for Linux (src/security/blacklist.rs). -/
def linuxBlacklistPaths : List Path :=
  [("/bin".toList), ("/sbin".toList), ("/usr/bin".toList),
   ("/usr/sbin".toList), ("/usr/lib".toList), ("/usr/lib64".toList),
   ("/usr/libexec".toList), ("/usr/share".toList), ("/lib".toList),
   ("/lib64".toList), ("/etc".toList), ("/dev".toList),
   ("/proc".toList), ("/sys".toList), ("/boot".toList),
   ("/root".toList), ("/var/lib".toList), ("/var/log/journal".toList),
   ("/home".toList), ("~/Documents".toList), ("~/Desktop".toList),
   ("~/Pictures".toList), ("~/Music".toList), ("~/Videos".toList),
   ("~/Downloads".toList)]

/-! ### Deletion workflow (src/app/state.rs)

Each delete handler iterates the current screen's items and, for
every item with the selected flag set, directly issues
std::fs::remove_dir_all or std::fs::remove_file on item.path.  No
other filesystem mutation occurs in the handlers, and none of them
constructs or calls a PathSanitizer.  The functions below collect, in
loop order, the exact paths on which a remove operation is issued. -/

/-- Paths removed by the StorageCleanup branch of
AppState::delete_selected (state.rs lines 684-698). -/
def cleanup_removal_targets (items : List CleanableItem) : List Path :=
  (items.filter (fun i => i.selected)).map (fun i => i.path)

/-- Paths removed by AppState::large_files_delete_selected
(state.rs lines 1029-1048). -/
def large_files_removal_targets (files : List LargeFileItem) : List Path :=
  (files.filter (fun f => f.selected)).map (fun f => f.path)

/-- Paths removed by AppState::duplicate_delete_selected
(state.rs lines 926-947). -/
def duplicate_removal_targets (groups : List DuplicateGroup) : List Path :=
  groups.foldr
    (fun g acc =>
      (g.files.filter (fun f => f.selected)).map (fun f => f.path) ++ acc) []

/-! ### Large file scanner (src/scanner/large_files.rs)

The WalkDir traversal (bounded by the optional max_depth) is the
environment: scan receives the list of plain files the walker yields,
each with its size and modified/accessed times in epoch seconds.
Metadata reads are modelled as succeeding, so the unwrap_or_else
branches that substitute the current time cannot fire. -/

/-- A plain file yielded by the walker. -/
structure FsFileEntry where
  path : Path
  size : Nat
  mtime : Int
  atime : Int
deriving DecidableEq

/-- LargeFileScanner configuration (max_depth configures the walker,
which is the environment of this model). -/
structure LargeFileScanner where
  min_size : Nat
  min_age_days : Nat
deriving DecidableEq

/-- Age in whole days: now.duration_since(modified) is zero when the
modification time lies in the future, then divided by 86400. -/
def age_days_of (now mtime : Int) : Nat :=
  (now - mtime).toNat / 86400

/-- LargeFileScanner::scan over the walker's file list. -/
def scan_large_files (sc : LargeFileScanner) (now : Int)
    (walk : List FsFileEntry) : List LargeFileItem :=
  let items := walk.filterMap (fun f =>
    if f.size < sc.min_size then none
    else if 0 < sc.min_age_days ∧
        now - (sc.min_age_days : Int) * 86400 ≤ f.mtime then none
    else some ⟨f.path, f.size, f.mtime, f.atime, age_days_of now f.mtime,
      false⟩)
  sortBy (fun a b => decide (b.size ≤ a.size)) items

/-- LargeFileScanner::calculate_total_size. -/
def calculate_total_size (items : List LargeFileItem) : Nat :=
  (items.map (fun i => i.size)).sum

/-- The four size bands of LargeFileScanner::group_by_size_category. -/
structure SizeCategories where
  huge : List LargeFileItem
  very_large : List LargeFileItem
  large : List LargeFileItem
  medium : List LargeFileItem
deriving DecidableEq

/-- LargeFileScanner::group_by_size_category.  The Rust code tests
size as f64 / 2^30 at 1.0 and size as f64 / 2^20 at 500.0 and 100.0;
for every u64 below 2^53 the conversion is exact and the division by a
power of two is exact, and above 2^53 all three tests hold, so the
float comparisons coincide with the integer thresholds used here. -/
def group_by_size_category : List LargeFileItem → SizeCategories
  | [] => ⟨[], [], [], []⟩
  | i :: rest =>
    let r := group_by_size_category rest
    if 1024 * 1024 * 1024 ≤ i.size then
      ⟨i :: r.huge, r.very_large, r.large, r.medium⟩
    else if 500 * 1024 * 1024 ≤ i.size then
      ⟨r.huge, i :: r.very_large, r.large, r.medium⟩
    else if 100 * 1024 * 1024 ≤ i.size then
      ⟨r.huge, r.very_large, i :: r.large, r.medium⟩
    else ⟨r.huge, r.very_large, r.large, i :: r.medium⟩

/-- SizeCategories::total_count. -/
def SizeCategories.total_count (c : SizeCategories) : Nat :=
  c.huge.length + c.very_large.length + c.large.length + c.medium.length

/-- SizeCategories::total_size. -/
def SizeCategories.total_size (c : SizeCategories) : Nat :=
  calculate_total_size c.huge + calculate_total_size c.very_large +
    calculate_total_size c.large + calculate_total_size c.medium

/-! ### Duplicate scanner (src/scanner/duplicates.rs)

The walker again supplies the surviving plain files; each carries its
byte content, whose length is the metadata size.  The SHA-256 digest
is an abstract hash function parameter; hashing is modelled as
succeeding (a file that fails to hash is merely dropped by the code
and no claim concerns that branch).  Phase-2 metadata lookups by path
are modelled by carrying the modification time on the file record. -/

/-- A plain file yielded by the duplicate scanner's walker. -/
structure DupFsFile where
  path : Path
  content : List Nat
  mtime : Int
deriving DecidableEq

/-- metadata.len() of a file is the length of its byte content. -/
def DupFsFile.size (f : DupFsFile) : Nat := f.content.length

structure DuplicateScanner where
  min_size : Nat
deriving DecidableEq

/-- The files that survive the walk's min-size filter. -/
def surviving_files (sc : DuplicateScanner) (walk : List DupFsFile) :
    List DupFsFile :=
  walk.filter (fun f => ! decide (f.size < sc.min_size))

/-- DuplicateScanner::group_by_size: files below min_size are skipped,
the rest grouped by exact byte size. -/
def size_groups_of (sc : DuplicateScanner) (walk : List DupFsFile) :
    List (Nat × List DupFsFile) :=
  groupPairs ((surviving_files sc walk).map (fun f => (f.size, f)))

/-- The files the scanner actually hashes: members of size groups of
cardinality at least 2 (groups of one are skipped before hashing). -/
def hashed_files (sc : DuplicateScanner) (walk : List DupFsFile) :
    List DupFsFile :=
  ((size_groups_of sc walk).filter (fun g => ! decide (g.2.length < 2))).foldr
    (fun g acc => g.2 ++ acc) []

/-- The (hash, DuplicateFile) insertions of phase 2: each hashed file
is recorded under its digest, with the size key of its size group. -/
def hashed_pairs (hash : List Nat → List Nat) (sc : DuplicateScanner)
    (walk : List DupFsFile) : List (List Nat × DuplicateFile) :=
  ((size_groups_of sc walk).filter (fun g => ! decide (g.2.length < 2))).foldr
    (fun g acc =>
      g.2.map (fun f => (hash f.content, ⟨f.path, g.1, f.mtime, false⟩)) ++ acc)
    []

/-- Step 3 of DuplicateScanner::scan on one surviving hash group:
members sorted by modification time ascending, total_size the sum of
member sizes, duplicate_size the total minus the first (oldest)
member's size (0 for an empty group, which step 3 rules out). -/
def make_dup_group (g : List Nat × List DuplicateFile) : DuplicateGroup :=
  ⟨g.1,
   sortBy (fun a b => decide (a.modified ≤ b.modified)) g.2,
   ((sortBy (fun a b => decide (a.modified ≤ b.modified)) g.2).map
     (fun f => f.size)).sum,
   match sortBy (fun a b => decide (a.modified ≤ b.modified)) g.2 with
   | [] => 0
   | f :: _ =>
     ((sortBy (fun a b => decide (a.modified ≤ b.modified)) g.2).map
       (fun f => f.size)).sum - f.size⟩

/-- The hash groups of phase 2. -/
def hash_groups_of (hash : List Nat → List Nat) (sc : DuplicateScanner)
    (walk : List DupFsFile) : List (List Nat × List DuplicateFile) :=
  groupPairs (hashed_pairs hash sc walk)

/-- DuplicateScanner::scan: size groups, hash groups, groups of at
least two kept, members sorted oldest first, totals computed, groups
sorted by wasted size descending. -/
def scan_duplicates (sc : DuplicateScanner) (hash : List Nat → List Nat)
    (walk : List DupFsFile) : List DuplicateGroup :=
  sortBy (fun a b => decide (b.duplicate_size ≤ a.duplicate_size))
    (((hash_groups_of hash sc walk).filter
      (fun g => decide (2 ≤ g.2.length))).map make_dup_group)

/-- DuplicateScanner::calculate_total_duplicates. -/
def calculate_total_duplicates (groups : List DuplicateGroup) : Nat :=
  (groups.map (fun g => g.duplicate_size)).sum

/-! ### Filesystem trees

A directory tree for the treemap and cleanup scanners: a file has a
name and size; a directory has a name, its own metadata length (the
size the OS reports for the directory inode, used by quick_dir_size),
a modification time and entries.  I/O errors are not modelled: every
entry is readable. -/

inductive FsTree where
  | file (name : String) (size : Nat)
  | dir (name : String) (metaLen : Nat) (mtime : Int) (entries : List FsTree)

def FsTree.name : FsTree → String
  | .file n _ => n
  | .dir n _ _ _ => n

/-- metadata.len() of a directory entry. -/
def FsTree.metaLen : FsTree → Nat
  | .file _ s => s
  | .dir _ m _ _ => m

/-- file_name().starts_with('.') on the entry's name. -/
def FsTree.isHiddenName (t : FsTree) : Bool :=
  match t.name.toList with
  | '.' :: _ => true
  | _ => false

/-! ### Treemap scanner (src/scanner/treemap.rs) -/

/-- TreeMapScanner::quick_dir_size: one-level sum of the metadata
lengths of the immediate entries, no recursion. -/
def quick_dir_size : FsTree → Nat
  | .file _ s => s
  | .dir _ _ _ entries => (entries.map FsTree.metaLen).sum

mutual

/-- TreeMapScanner::scan_directory at path p.  The node name is the
final path component, which for every node built here is the tree
entry's name. -/
def scan_directory (p : Path) (curDepth maxDepth : Nat) :
    FsTree → TreeMapItem
  | .file name size => ⟨p, name, size, [], true⟩
  | .dir name _ _ entries =>
    let kids := scan_children p curDepth maxDepth entries
    ⟨p, name, (kids.map (fun c => c.size)).sum,
      sortBy (fun a b => decide (b.size ≤ a.size)) kids, false⟩

/-- The children loop of scan_directory: hidden entries skipped,
directories recursed into below the depth cap and replaced by
quick_dir_size leaves at the cap. -/
def scan_children (p : Path) (curDepth maxDepth : Nat) :
    List FsTree → List TreeMapItem
  | [] => []
  | e :: rest =>
    let tail := scan_children p curDepth maxDepth rest
    if FsTree.isHiddenName e then tail
    else
      match e with
      | .file n s => (⟨joinPath p n.toList, n, s, [], true⟩ : TreeMapItem) :: tail
      | .dir n ml mt entries =>
        if curDepth < maxDepth then
          scan_directory (joinPath p n.toList) (curDepth + 1) maxDepth
            (.dir n ml mt entries) :: tail
        else
          (⟨joinPath p n.toList, n, quick_dir_size (.dir n ml mt entries),
            [], false⟩ : TreeMapItem) :: tail

end

/-- TreeMapScanner::scan: depth cap 3. -/
def scan_treemap (p : Path) (t : FsTree) : TreeMapItem :=
  scan_directory p 0 3 t

/-! ### Cleanup scanner (src/scanner/cleanup.rs)

The environment is the home directory plus a table of existing root
directories: path.exists() holds exactly for the recorded roots, and
the fs::metadata modification time of a directory is the time stored
on its tree node. -/

structure CleanupWorld where
  home : Option Path
  roots : List (Path × FsTree)

def assocLookup [DecidableEq κ] (k : κ) : List (κ × α) → Option α
  | [] => none
  | (k', v) :: rest => if k = k' then some v else assocLookup k rest

mutual

/-- One entry of the WalkDir::new(root).max_depth(maxD) traversal,
met at depth entryDepth inside the directory at path p with
modification time mt: a file contributes the triple (parent
directory, parent mtime, file size), a directory is descended into. -/
def collect_entry (p : Path) (mt : Int) (entryDepth maxD : Nat) :
    FsTree → List (Path × Int × Nat)
  | .file _ s => [(p, mt, s)]
  | .dir n _ mt' entries =>
    collect_entries (joinPath p n.toList) mt' (entryDepth + 1) maxD entries

/-- The entries of a directory: WalkDir yields only entries of depth
at most maxD. -/
def collect_entries (p : Path) (mt : Int) (entryDepth maxD : Nat) :
    List FsTree → List (Path × Int × Nat)
  | [] => []
  | e :: rest =>
    (if entryDepth ≤ maxD then collect_entry p mt entryDepth maxD e
     else []) ++ collect_entries p mt entryDepth maxD rest

end

/-- The depth-bounded walk of CleanupScanner::scan_path.  The scanner
is invoked on directory roots (the category tables list directories). -/
def scan_path_walk (p : Path) (t : FsTree) (maxD : Nat) :
    List (Path × Int × Nat) :=
  match t with
  | .file _ _ => []
  | .dir _ _ mt entries => collect_entries p mt 1 maxD entries

/-- CleanupScanner::scan_path: accumulate file sizes by immediate
parent directory over a depth-5 walk, then emit every directory whose
accumulated size exceeds 100 KiB. -/
def scan_path (p : Path) (t : FsTree) (category : CleanupCategory) :
    List CleanableItem :=
  let dirSizes := groupPairs ((scan_path_walk p t 5).map
    (fun e => ((e.1, e.2.1), e.2.2)))
  dirSizes.filterMap (fun g =>
    let total := g.2.sum
    if 100 * 1024 < total then
      some ⟨g.1.1, total, category, g.1.2, false⟩
    else none)

/-- get_category_paths for Linux (src/scanner/cleanup.rs). -/
def linux_category_paths (home : Option Path) :
    CleanupCategory → List Path
  | .systemCaches => [("/var/cache".toList)]
  | .userCaches =>
    match home with
    | some h => [joinPath h (".cache".toList)]
    | none => []
  | .logs => [("/var/log".toList)]
  | .trash =>
    match home with
    | some h => [joinPath h (".local/share/Trash".toList)]
    | none => []
  | .downloads =>
    match home with
    | some h => [joinPath h ("Downloads".toList)]
    | none => []
  | .developerCaches =>
    match home with
    | some h =>
      [joinPath h (".npm".toList), joinPath h (".yarn".toList),
       joinPath h (".cargo/registry".toList),
       joinPath h (".gradle/caches".toList),
       joinPath h (".cache/pip".toList)]
    | none => []
  | .browserData =>
    match home with
    | some h =>
      [joinPath h (".cache/google-chrome".toList),
       joinPath h (".mozilla/firefox".toList),
       joinPath h (".cache/chromium".toList)]
    | none => []
  | .applicationSupport => []

/-- CleanupScanner::scan_category, over the platform's category-path
table (the cfg(target_os) selection of get_category_paths): roots
that do not exist are skipped. -/
def scan_category (catPaths : Option Path → CleanupCategory → List Path)
    (w : CleanupWorld) (c : CleanupCategory) : List CleanableItem :=
  (catPaths w.home c).foldr (fun p acc =>
    match assocLookup p w.roots with
    | some t => scan_path p t c ++ acc
    | none => acc) []

/-- The fallback directories of CleanupScanner::scan_all: Downloads,
Documents, Desktop and the Library subdirectory of home. -/
def fallback_dirs (home : Path) : List Path :=
  [joinPath home ("Downloads".toList), joinPath home ("Documents".toList),
   joinPath home ("Desktop".toList), joinPath home ("Library".toList)]

/-- CleanupScanner::scan_all: all categories, then, when nothing was
found, the broader user-cache fallback scan. -/
def scan_all (catPaths : Option Path → CleanupCategory → List Path)
    (w : CleanupWorld) : List CleanableItem :=
  let allItems := CleanupCategory.all.foldr
    (fun c acc => scan_category catPaths w c ++ acc) []
  if allItems.isEmpty then
    match w.home with
    | some home =>
      (fallback_dirs home).foldr (fun d acc =>
        match assocLookup d w.roots with
        | some t => scan_path d t .userCaches ++ acc
        | none => acc) []
    | none => allItems
  else allItems

/-! ### List infrastructure lemmas -/

theorem insertSorted_perm (le : α → α → Bool) (a : α) (l : List α) :
    List.Perm (insertSorted le a l) (a :: l) := by
  induction l with
  | nil => simp [insertSorted]
  | cons b l ih =>
    simp only [insertSorted]
    by_cases h : le a b
    · simp [h]
    · simp only [h, if_neg, Bool.false_eq_true, not_false_eq_true, ite_false]
      exact (List.Perm.cons b ih).trans (List.Perm.swap a b l)

theorem sortBy_perm (le : α → α → Bool) (l : List α) :
    List.Perm (sortBy le l) l := by
  induction l with
  | nil => simp [sortBy]
  | cons a l ih =>
    exact (insertSorted_perm le a (sortBy le l)).trans (List.Perm.cons a ih)

theorem mem_insertSorted (le : α → α → Bool) (a x : α) (l : List α) :
    x ∈ insertSorted le a l ↔ x = a ∨ x ∈ l := by
  rw [(insertSorted_perm le a l).mem_iff]
  simp

theorem mem_sortBy (le : α → α → Bool) (x : α) (l : List α) :
    x ∈ sortBy le l ↔ x ∈ l :=
  (sortBy_perm le l).mem_iff

theorem pairwise_insertSorted (le : α → α → Bool)
    (htot : ∀ a b, le a b = true ∨ le b a = true)
    (htrans : ∀ a b c, le a b = true → le b c = true → le a c = true)
    (a : α) (l : List α) (hl : List.Pairwise (fun x y => le x y = true) l) :
    List.Pairwise (fun x y => le x y = true) (insertSorted le a l) := by
  induction l with
  | nil => simp [insertSorted]
  | cons b l ih =>
    rcases List.pairwise_cons.mp hl with ⟨hb, hl'⟩
    simp only [insertSorted]
    by_cases h : le a b
    · simp only [h, ite_true]
      refine List.pairwise_cons.mpr ⟨?_, hl⟩
      intro x hx
      rcases List.mem_cons.mp hx with hx | hx
      · exact hx ▸ h
      · exact htrans a b x h (hb x hx)
    · have hba : le b a = true := by
        rcases htot a b with h1 | h1
        · exact absurd h1 h
        · exact h1
      simp only [h, ite_false, Bool.false_eq_true, not_false_eq_true, if_neg]
      refine List.pairwise_cons.mpr ⟨?_, ih hl'⟩
      intro x hx
      rcases (mem_insertSorted le a x l).mp hx with hx | hx
      · subst hx; exact hba
      · exact hb x hx

theorem pairwise_sortBy (le : α → α → Bool)
    (htot : ∀ a b, le a b = true ∨ le b a = true)
    (htrans : ∀ a b c, le a b = true → le b c = true → le a c = true)
    (l : List α) :
    List.Pairwise (fun x y => le x y = true) (sortBy le l) := by
  induction l with
  | nil => simp [sortBy]
  | cons a l ih => exact pairwise_insertSorted le htot htrans a (sortBy le l) ih

theorem length_sortBy (le : α → α → Bool) (l : List α) :
    (sortBy le l).length = l.length :=
  (sortBy_perm le l).length_eq

theorem findValues_insertGrouped [DecidableEq κ] (k k' : κ) (v : α)
    (m : List (κ × List α)) :
    findValues k (insertGrouped k' v m) =
      if k = k' then findValues k m ++ [v] else findValues k m := by
  induction m with
  | nil =>
    by_cases h : k = k' <;> simp [insertGrouped, findValues, h]
  | cons p m ih =>
    obtain ⟨k0, vs⟩ := p
    by_cases h1 : k' = k0
    · subst h1
      by_cases h2 : k = k' <;> simp [insertGrouped, findValues, h2]
    · by_cases h2 : k = k0
      · subst h2
        simp only [insertGrouped, h1, if_neg, findValues, ite_true]
        have : ¬ k = k' := fun hk => h1 (hk ▸ rfl)
        simp [this, findValues, insertGrouped, h1]
      · simp [insertGrouped, h1, findValues, h2, ih]

theorem findValues_groupPairsAux [DecidableEq κ] (k : κ)
    (ps : List (κ × α)) (m : List (κ × List α)) :
    findValues k (groupPairsAux m ps) =
      findValues k m ++ (ps.filter (fun q => q.1 = k)).map Prod.snd := by
  induction ps generalizing m with
  | nil => simp [groupPairsAux]
  | cons p ps ih =>
    obtain ⟨k', v⟩ := p
    simp only [groupPairsAux]
    rw [ih, findValues_insertGrouped]
    by_cases h : k = k'
    · subst h
      simp [List.filter]
    · have h' : ¬ k' = k := fun hk => h (hk ▸ rfl)
      simp [h, List.filter, h']

theorem findValues_groupPairs [DecidableEq κ] (k : κ) (ps : List (κ × α)) :
    findValues k (groupPairs ps) =
      (ps.filter (fun q => q.1 = k)).map Prod.snd := by
  rw [groupPairs, findValues_groupPairsAux]
  simp [findValues]

theorem mem_keys_insertGrouped [DecidableEq κ] {k k0 : κ} {v : α}
    {m : List (κ × List α)}
    (h : k0 ∈ (insertGrouped k v m).map Prod.fst) :
    k0 = k ∨ k0 ∈ m.map Prod.fst := by
  induction m with
  | nil =>
    simp only [insertGrouped, List.map_cons, List.map_nil, List.mem_cons,
      List.not_mem_nil, or_false] at h
    exact Or.inl h
  | cons p m ih =>
    obtain ⟨k1, vs⟩ := p
    by_cases hk : k = k1
    · subst hk
      simp only [insertGrouped, ite_true, List.map_cons, List.mem_cons] at h
      rcases h with h1 | h1
      · exact Or.inl h1
      · exact Or.inr (List.mem_cons_of_mem _ h1)
    · simp only [insertGrouped, hk, ite_false, List.map_cons, List.mem_cons] at h
      rcases h with h1 | h1
      · exact Or.inr (h1 ▸ List.mem_cons_self _ _)
      · rcases ih h1 with h2 | h2
        · exact Or.inl h2
        · exact Or.inr (List.mem_cons_of_mem _ h2)

theorem keysNodup_insertGrouped [DecidableEq κ] (k : κ) (v : α)
    (m : List (κ × List α)) (h : KeysNodup m) :
    KeysNodup (insertGrouped k v m) := by
  induction m with
  | nil => simp [insertGrouped, KeysNodup]
  | cons p m ih =>
    obtain ⟨k0, vs⟩ := p
    rcases List.nodup_cons.mp h with ⟨hk0, hm⟩
    by_cases hk : k = k0
    · subst hk
      simpa [insertGrouped, KeysNodup] using h
    · simp only [KeysNodup, insertGrouped, hk, ite_false, List.map_cons]
      refine List.nodup_cons.mpr ⟨?_, ih hm⟩
      intro hmem
      rcases mem_keys_insertGrouped hmem with h1 | h1
      · exact hk (h1 ▸ rfl)
      · exact hk0 h1

theorem keysNodup_groupPairsAux [DecidableEq κ] (ps : List (κ × α))
    (m : List (κ × List α)) (h : KeysNodup m) :
    KeysNodup (groupPairsAux m ps) := by
  induction ps generalizing m with
  | nil => simpa [groupPairsAux] using h
  | cons p ps ih =>
    obtain ⟨k, v⟩ := p
    exact ih _ (keysNodup_insertGrouped k v m h)

theorem keysNodup_groupPairs [DecidableEq κ] (ps : List (κ × α)) :
    KeysNodup (groupPairs ps) := by
  apply keysNodup_groupPairsAux
  simp [KeysNodup]

theorem findValues_of_mem [DecidableEq κ] {k : κ} {vs : List α}
    {m : List (κ × List α)} (hmem : (k, vs) ∈ m) (h : KeysNodup m) :
    findValues k m = vs := by
  induction m with
  | nil => simp at hmem
  | cons p m ih =>
    obtain ⟨k0, vs0⟩ := p
    rcases List.nodup_cons.mp h with ⟨hk0, hm⟩
    rcases List.mem_cons.mp hmem with h1 | h1
    · injection h1 with h2 h3
      subst h2; subst h3
      simp [findValues]
    · have hne : k ≠ k0 := by
        intro hk
        subst hk
        exact hk0 (by simpa using List.mem_map_of_mem Prod.fst h1)
      simp only [findValues, hne, ite_false]
      exact ih h1 hm

/-- Every group of a grouping is exactly the in-order values of its key. -/
theorem group_eq_findValues [DecidableEq κ] {k : κ} {vs : List α}
    {ps : List (κ × α)} (hmem : (k, vs) ∈ groupPairs ps) :
    vs = (ps.filter (fun q => q.1 = k)).map Prod.snd := by
  rw [← findValues_groupPairs]
  exact (findValues_of_mem hmem (keysNodup_groupPairs ps)).symm

theorem mem_of_mem_group [DecidableEq κ] {k : κ} {vs : List α}
    {ps : List (κ × α)} (hmem : (k, vs) ∈ groupPairs ps) {v : α}
    (hv : v ∈ vs) : (k, v) ∈ ps := by
  rw [group_eq_findValues hmem] at hv
  rcases List.mem_map.mp hv with ⟨q, hq, hq2⟩
  rcases List.mem_filter.mp hq with ⟨hq3, hq4⟩
  have : q.1 = k := by simpa using hq4
  have : q = (k, v) := by
    obtain ⟨q1, q2⟩ := q
    simp only at hq2 this
    simp [this, hq2]
  exact this ▸ hq3

/-! ### Sanitizer lemmas -/

theorem expand_home_eq_of_home (fs : SanFS) (h : Path)
    (hh : fs.home = some h) (e : Path) :
    expand_home fs e = .ok (expandedEntry h e) := by
  unfold expand_home expandedEntry
  rw [hh]
  split_ifs <;> rfl

theorem check_blacklist_blacklisted (fs : SanFS) (h p : Path)
    (hh : fs.home = some h) (bl : List Path) (e : Path) (he : e ∈ bl)
    (hm : p = expandedEntry h e ∨ (expandedEntry h e ++ ['/']) <+: p) :
    check_blacklist fs p bl = .error (.blacklisted p) := by
  induction bl with
  | nil => cases he
  | cons e0 rest ih =>
    by_cases hhit : p = expandedEntry h e0 ∨ (expandedEntry h e0 ++ ['/']) <+: p
    · simp [check_blacklist, expand_home_eq_of_home fs h hh, hhit,
        Bind.bind, Except.bind]
    · have he' : e ∈ rest := by
        rcases List.mem_cons.mp he with h1 | h1
        · exact absurd (h1 ▸ hm) hhit
        · exact h1
      simp [check_blacklist, expand_home_eq_of_home fs h hh, hhit,
        Bind.bind, Except.bind, ih he']

theorem check_blacklist_ok_iff (fs : SanFS) (h p : Path)
    (hh : fs.home = some h) (bl : List Path) :
    check_blacklist fs p bl = .ok () ↔
      ∀ e ∈ bl,
        ¬(p = expandedEntry h e ∨ (expandedEntry h e ++ ['/']) <+: p) := by
  induction bl with
  | nil => simp [check_blacklist]
  | cons e0 rest ih =>
    by_cases hhit : p = expandedEntry h e0 ∨ (expandedEntry h e0 ++ ['/']) <+: p
    · simp only [check_blacklist, expand_home_eq_of_home fs h hh, hhit,
        Bind.bind, Except.bind, ite_true]
      constructor
      · intro hcon
        cases hcon
      · intro hall
        exact absurd hhit (hall e0 (List.mem_cons_self _ _))
    · simp only [check_blacklist, expand_home_eq_of_home fs h hh, hhit,
        Bind.bind, Except.bind, ite_false]
      rw [ih]
      constructor
      · intro hall e he
        rcases List.mem_cons.mp he with h1 | h1
        · exact h1 ▸ hhit
        · exact hall e h1
      · intro hall e he
        exact hall e (List.mem_cons_of_mem _ he)

theorem check_blacklist_ok_or (fs : SanFS) (h p : Path)
    (hh : fs.home = some h) (bl : List Path) :
    check_blacklist fs p bl = .ok () ∨
      check_blacklist fs p bl = .error (.blacklisted p) := by
  induction bl with
  | nil => exact Or.inl rfl
  | cons e0 rest ih =>
    by_cases hhit : p = expandedEntry h e0 ∨ (expandedEntry h e0 ++ ['/']) <+: p
    · exact Or.inr (by
        simp [check_blacklist, expand_home_eq_of_home fs h hh, hhit,
          Bind.bind, Except.bind])
    · rcases ih with h1 | h1
      · exact Or.inl (by
          simp [check_blacklist, expand_home_eq_of_home fs h hh, hhit,
            Bind.bind, Except.bind, h1])
      · exact Or.inr (by
          simp [check_blacklist, expand_home_eq_of_home fs h hh, hhit,
            Bind.bind, Except.bind, h1])

theorem sanitize_path_of_candidate_error (s : PathSanitizer) (bl : List Path)
    (fs : SanFS) (p : Path) (err : ValidationError)
    (hc : sanitize_candidate fs p = .error err) :
    sanitize_path s bl fs p = .error err := by
  simp [sanitize_path, hc, Bind.bind, Except.bind]

theorem sanitize_path_of_blacklist_error (s : PathSanitizer) (bl : List Path)
    (fs : SanFS) (p c : Path) (err : ValidationError)
    (hc : sanitize_candidate fs p = .ok c)
    (ht : check_path_traversal c = .ok ())
    (hb : check_blacklist fs c bl = .error err) :
    sanitize_path s bl fs p = .error err := by
  simp [sanitize_path, hc, ht, hb, Bind.bind, Except.bind]

/-- Claim C2: every path that equals, or is nested under, a
home-expanded entry of the platform blacklist is rejected by
sanitize_path with the blacklist reason, for every age-protection
configuration (enforced or not, any minimum age), whenever the
canonicalization step yields that path as the candidate and the path
is in canonical form (no residual parent-directory segment). -/
theorem claim2_blacklist_rejects_nested (s : PathSanitizer) (bl : List Path)
    (fs : SanFS) (h p c e rest : Path) (hh : fs.home = some h)
    (hc : sanitize_candidate fs p = .ok c)
    (ht : check_path_traversal c = .ok ()) (he : e ∈ bl)
    (hm : c = expandedEntry h e ∨ c = expandedEntry h e ++ '/' :: rest) :
    sanitize_path s bl fs p = .error (.blacklisted c) := by
  have hm' : c = expandedEntry h e ∨ (expandedEntry h e ++ ['/']) <+: c := by
    rcases hm with h1 | h1
    · exact Or.inl h1
    · right
      rw [h1]
      have h2 : expandedEntry h e ++ '/' :: rest =
          (expandedEntry h e ++ ['/']) ++ rest := by simp
      rw [h2]
      exact List.prefix_append _ _
  exact sanitize_path_of_blacklist_error s bl fs p c _ hc ht
    (check_blacklist_blacklisted fs h c hh bl e he hm')

/-- Witness for C2: the sanitizer with the default 7-day age
protection and an environment where every path is brand new (age 0)
still rejects /System/Foo with the blacklist reason. -/
theorem claim2_blacklist_rejects_nested_witness :
    sanitize_path ⟨7, true⟩ macosBlacklistPaths
      ⟨some ("/Users/u".toList), fun q => some q, fun _ => true,
        fun _ => some [], fun _ => 0⟩ ("/System/Foo".toList) =
      .error (.blacklisted ("/System/Foo".toList)) :=
  claim2_blacklist_rejects_nested ⟨7, true⟩ macosBlacklistPaths
    ⟨some ("/Users/u".toList), fun q => some q, fun _ => true,
      fun _ => some [], fun _ => 0⟩
    ("/Users/u".toList) ("/System/Foo".toList) ("/System/Foo".toList)
    ("/System".toList) ("Foo".toList) rfl rfl rfl (by decide)
    (Or.inr (by decide))

/-- Claim C10: the blacklist check matches on whole path components:
with the home directory resolved, a path is rejected (with the
blacklist reason) exactly when it equals a home-expanded entry or
starts with a home-expanded entry followed by the path separator, and
it passes exactly when it does neither for any entry. -/
theorem claim10_blacklist_component_boundary (fs : SanFS) (h p : Path)
    (hh : fs.home = some h) (bl : List Path) :
    (check_blacklist fs p bl = .error (.blacklisted p) ↔
      ∃ e ∈ bl,
        p = expandedEntry h e ∨ (expandedEntry h e ++ ['/']) <+: p) ∧
    (check_blacklist fs p bl = .ok () ↔
      ∀ e ∈ bl,
        p ≠ expandedEntry h e ∧ ¬(expandedEntry h e ++ ['/']) <+: p) := by
  have hok := check_blacklist_ok_iff fs h p hh bl
  constructor
  · constructor
    · intro herr
      by_contra hno
      push_neg at hno
      have : check_blacklist fs p bl = .ok () := by
        rw [hok]
        intro e he
        rw [not_or]
        exact hno e he
      rw [this] at herr
      cases herr
    · intro hex
      rcases hex with ⟨e, he, hm⟩
      exact check_blacklist_blacklisted fs h p hh bl e he hm
  · rw [hok]
    constructor
    · intro hall e he
      exact not_or.mp (hall e he)
    · intro hall e he
      rw [not_or]
      exact hall e he

/-- Witness for C10: with the macOS blacklist, /binx (which merely
extends the entry /bin without a separator) passes the blacklist
check, while /bin/x (a true child of /bin) is rejected. -/
theorem claim10_blacklist_component_boundary_witness :
    check_blacklist
      ⟨some ("/Users/u".toList), fun q => some q, fun _ => true,
        fun _ => some [], fun _ => 0⟩
      ("/binx".toList) macosBlacklistPaths = .ok () ∧
    check_blacklist
      ⟨some ("/Users/u".toList), fun q => some q, fun _ => true,
        fun _ => some [], fun _ => 0⟩
      ("/bin/x".toList) macosBlacklistPaths =
      .error (.blacklisted ("/bin/x".toList)) := by
  constructor
  · exact (claim10_blacklist_component_boundary
      ⟨some ("/Users/u".toList), fun q => some q, fun _ => true,
        fun _ => some [], fun _ => 0⟩
      ("/Users/u".toList) ("/binx".toList) rfl macosBlacklistPaths).2.mpr
      (by decide)
  · exact (claim10_blacklist_component_boundary
      ⟨some ("/Users/u".toList), fun q => some q, fun _ => true,
        fun _ => some [], fun _ => 0⟩
      ("/Users/u".toList) ("/bin/x".toList) rfl macosBlacklistPaths).1.mpr
      ⟨("/bin".toList), by decide, by decide⟩

/-- Claim C7: when a path cannot be canonicalized but its parent
exists, the home-expanded non-canonical path becomes the candidate;
when neither exists, sanitize_path fails with the does-not-exist
reason (carrying the original path); and the age-protection check is
skipped entirely for a path that does not exist. -/
theorem claim7_candidate_fallback (s : PathSanitizer) (bl : List Path)
    (fs : SanFS) (p expanded par : Path)
    (hexp : expand_home fs p = .ok expanded)
    (hcan : fs.canonicalize expanded = none) :
    (fs.parent expanded = some par → fs.fsExists par = true →
      sanitize_candidate fs p = .ok expanded) ∧
    (fs.parent expanded = some par → fs.fsExists par = false →
      sanitize_path s bl fs p = .error (.doesNotExist p)) ∧
    (fs.parent expanded = none →
      sanitize_path s bl fs p = .error (.doesNotExist p)) ∧
    (∀ q, fs.fsExists q = false → check_age_protection s fs q = .ok ()) := by
  refine ⟨?_, ?_, ?_, ?_⟩
  · intro hpar hex
    simp [sanitize_candidate, canonicalize_step, hexp, hcan, hpar, hex,
      Bind.bind, Except.bind]
  · intro hpar hex
    apply sanitize_path_of_candidate_error
    simp [sanitize_candidate, canonicalize_step, hexp, hcan, hpar, hex,
      Bind.bind, Except.bind]
  · intro hpar
    apply sanitize_path_of_candidate_error
    simp [sanitize_candidate, canonicalize_step, hexp, hcan, hpar,
      Bind.bind, Except.bind]
  · intro q hq
    simp [check_age_protection, hq]

/-- Witness for C7: a missing /tmp/gone with an existing parent is
accepted as candidate; with no existing parent the whole validation
fails with does-not-exist; the age check passes on a missing path
even with age protection enforced. -/
theorem claim7_candidate_fallback_witness :
    sanitize_candidate
      ⟨some [], fun _ => none, fun q => decide (q = ("/tmp".toList)),
        fun _ => some ("/tmp".toList), fun _ => 0⟩
      ("/tmp/gone".toList) = .ok ("/tmp/gone".toList) ∧
    sanitize_path ⟨7, true⟩ macosBlacklistPaths
      ⟨some [], fun _ => none, fun _ => false,
        fun _ => some ("/tmp".toList), fun _ => 0⟩
      ("/tmp/gone".toList) = .error (.doesNotExist ("/tmp/gone".toList)) ∧
    check_age_protection ⟨7, true⟩
      ⟨some [], fun _ => none, fun _ => false,
        fun _ => some ("/tmp".toList), fun _ => 0⟩
      ("/tmp/gone".toList) = .ok () := by
  refine ⟨?_, ?_, ?_⟩
  · exact (claim7_candidate_fallback ⟨7, true⟩ macosBlacklistPaths
      ⟨some [], fun _ => none, fun q => decide (q = ("/tmp".toList)),
        fun _ => some ("/tmp".toList), fun _ => 0⟩
      ("/tmp/gone".toList) ("/tmp/gone".toList) ("/tmp".toList)
      rfl rfl).1 rfl (by decide)
  · exact (claim7_candidate_fallback ⟨7, true⟩ macosBlacklistPaths
      ⟨some [], fun _ => none, fun _ => false,
        fun _ => some ("/tmp".toList), fun _ => 0⟩
      ("/tmp/gone".toList) ("/tmp/gone".toList) ("/tmp".toList)
      rfl rfl).2.1 rfl rfl
  · exact (claim7_candidate_fallback ⟨7, true⟩ macosBlacklistPaths
      ⟨some [], fun _ => none, fun _ => false,
        fun _ => some ("/tmp".toList), fun _ => 0⟩
      ("/tmp/gone".toList) ("/tmp/gone".toList) ("/tmp".toList)
      rfl rfl).2.2.2 ("/tmp/gone".toList) rfl

/-- Claim C1 (code-bug evidence): the deletion handlers issue remove
operations on every selected item's path directly - a selected
blacklisted item such as /bin is removed by the cleanup and
large-files delete loops - while sanitize_path rejects /bin with the
blacklist reason under every configuration on both platforms.  No
deletion handler in src/app/state.rs constructs or calls a
PathSanitizer. -/
theorem claim1_unsanitized_delete :
    cleanup_removal_targets
      [⟨("/bin".toList), 1024, .systemCaches, 0, true⟩] =
      [("/bin".toList)] ∧
    large_files_removal_targets
      [⟨("/bin".toList), 1024, 0, 0, 0, true⟩] = [("/bin".toList)] ∧
    ∀ (s : PathSanitizer) (fs : SanFS),
      fs.canonicalize ("/bin".toList) = some ("/bin".toList) →
      sanitize_path s macosBlacklistPaths fs ("/bin".toList) =
        .error (.blacklisted ("/bin".toList)) ∧
      sanitize_path s linuxBlacklistPaths fs ("/bin".toList) =
        .error (.blacklisted ("/bin".toList)) := by
  refine ⟨rfl, rfl, ?_⟩
  intro s fs hc
  have hexp : expand_home fs ("/bin".toList) = .ok ("/bin".toList) := rfl
  have hcand : sanitize_candidate fs ("/bin".toList) =
      .ok ("/bin".toList) := by
    unfold sanitize_candidate
    rw [hexp]
    show canonicalize_step fs ("/bin".toList) ("/bin".toList) =
      .ok ("/bin".toList)
    unfold canonicalize_step
    rw [hc]
  have htrav : check_path_traversal ("/bin".toList) = .ok () := rfl
  have hbl1 : check_blacklist fs ("/bin".toList) macosBlacklistPaths =
      .error (.blacklisted ("/bin".toList)) := rfl
  have hbl2 : check_blacklist fs ("/bin".toList) linuxBlacklistPaths =
      .error (.blacklisted ("/bin".toList)) := rfl
  exact ⟨sanitize_path_of_blacklist_error s macosBlacklistPaths fs _ _ _
      hcand htrav hbl1,
    sanitize_path_of_blacklist_error s linuxBlacklistPaths fs _ _ _
      hcand htrav hbl2⟩

/-- Witness for C1: the evidence theorem at a concrete environment. -/
theorem claim1_unsanitized_delete_witness :
    sanitize_path ⟨7, true⟩ macosBlacklistPaths
      ⟨some ("/Users/u".toList), fun q => some q, fun _ => true,
        fun _ => some [], fun _ => 0⟩ ("/bin".toList) =
      .error (.blacklisted ("/bin".toList)) :=
  ((claim1_unsanitized_delete.2.2 ⟨7, true⟩
    ⟨some ("/Users/u".toList), fun q => some q, fun _ => true,
      fun _ => some [], fun _ => 0⟩ rfl).1)

/-! ### Large file scanner theorems -/

/-- Counterexample to C6 as stated: a file whose modification time is
exactly at the cutoff now − min_age_days (and whose size meets the
minimum) is excluded by scan, not included: the code skips every file
with mod_time ≥ cutoff. -/
theorem claim6_cutoff_counterexample :
    (9 * 86400 : Int) = 10 * 86400 - (1 : Int) * 86400 ∧
    (1 : Nat) ≤ (⟨("/a".toList), 5, 9 * 86400, 0⟩ : FsFileEntry).size ∧
    scan_large_files ⟨1, 1⟩ (10 * 86400)
      [⟨("/a".toList), 5, 9 * 86400, 0⟩] = [] := by
  refine ⟨by decide, by decide, by decide⟩

/-- Claim C6 (amended): every returned item has size at least the
configured minimum; when min_age_days is positive every returned
item's modification time is strictly before now − min_age_days (a
file exactly at the cutoff is excluded); and the returned list is
sorted by size descending. -/
theorem claim6_large_files_filters (sc : LargeFileScanner) (now : Int)
    (walk : List FsFileEntry) :
    (∀ item ∈ scan_large_files sc now walk,
      sc.min_size ≤ item.size ∧
      (0 < sc.min_age_days →
        item.modified < now - (sc.min_age_days : Int) * 86400)) ∧
    List.Pairwise (fun a b => b.size ≤ a.size)
      (scan_large_files sc now walk) := by
  constructor
  · intro item hmem
    rw [scan_large_files, mem_sortBy] at hmem
    rcases List.mem_filterMap.mp hmem with ⟨f, hf, heq⟩
    by_cases h1 : f.size < sc.min_size
    · rw [if_pos h1] at heq
      cases heq
    · by_cases h2 : 0 < sc.min_age_days ∧
          now - (sc.min_age_days : Int) * 86400 ≤ f.mtime
      · rw [if_neg h1, if_pos h2] at heq
        cases heq
      · rw [if_neg h1, if_neg h2] at heq
        injection heq with heq
        constructor
        · rw [← heq]
          exact Nat.le_of_not_lt h1
        · intro hpos
          rw [← heq]
          show f.mtime < now - (sc.min_age_days : Int) * 86400
          by_contra hge
          push_neg at hge
          exact h2 ⟨hpos, hge⟩
  · have hp := pairwise_sortBy
      (fun a b : LargeFileItem => decide (b.size ≤ a.size))
      (by
        intro a b
        rcases Nat.le_total b.size a.size with h | h
        · left; simpa using h
        · right; simpa using h)
      (by
        intro a b c h1 h2
        simp only [decide_eq_true_eq] at h1 h2 ⊢
        omega)
      (walk.filterMap (fun f =>
        if f.size < sc.min_size then none
        else if 0 < sc.min_age_days ∧
            now - (sc.min_age_days : Int) * 86400 ≤ f.mtime then none
        else some ⟨f.path, f.size, f.mtime, f.atime, age_days_of now f.mtime,
          false⟩))
    exact List.Pairwise.imp (by intro a b h; simpa using h) hp

/-- Witness for C6 (amended): a 3-byte, 10-day-old file scanned with
min_size 1 and min_age_days 1 satisfies both filter conditions. -/
theorem claim6_large_files_filters_witness :
    (⟨1, 1⟩ : LargeFileScanner).min_size ≤
      (⟨("/a".toList), 3, 0, 0, 10, false⟩ : LargeFileItem).size ∧
    (0 < (⟨1, 1⟩ : LargeFileScanner).min_age_days →
      (⟨("/a".toList), 3, 0, 0, 10, false⟩ : LargeFileItem).modified <
        10 * 86400 - (((⟨1, 1⟩ : LargeFileScanner).min_age_days : Nat) : Int) *
          86400) :=
  (claim6_large_files_filters ⟨1, 1⟩ (10 * 86400)
    [⟨("/a".toList), 3, 0, 0⟩]).1 ⟨("/a".toList), 3, 0, 0, 10, false⟩
    (by decide)

/-! ### Size-band partition theorems -/

theorem gbsc_total_count (items : List LargeFileItem) :
    (group_by_size_category items).total_count = items.length := by
  induction items with
  | nil => rfl
  | cons i rest ih =>
    rw [group_by_size_category]
    by_cases h1 : 1024 * 1024 * 1024 ≤ i.size
    · simp only [h1, ite_true, SizeCategories.total_count, List.length_cons]
      rw [SizeCategories.total_count] at ih
      omega
    · by_cases h2 : 500 * 1024 * 1024 ≤ i.size
      · simp only [h1, h2, ite_true, ite_false, SizeCategories.total_count,
          List.length_cons]
        rw [SizeCategories.total_count] at ih
        omega
      · by_cases h3 : 100 * 1024 * 1024 ≤ i.size
        · simp only [h1, h2, h3, ite_true, ite_false,
            SizeCategories.total_count, List.length_cons]
          rw [SizeCategories.total_count] at ih
          omega
        · simp only [h1, h2, h3, ite_false, SizeCategories.total_count,
            List.length_cons]
          rw [SizeCategories.total_count] at ih
          omega

theorem gbsc_total_size (items : List LargeFileItem) :
    (group_by_size_category items).total_size = calculate_total_size items := by
  induction items with
  | nil => rfl
  | cons i rest ih =>
    rw [group_by_size_category]
    simp only [SizeCategories.total_size, calculate_total_size] at ih
    by_cases h1 : 1024 * 1024 * 1024 ≤ i.size
    · simp only [h1, ite_true, SizeCategories.total_size,
        calculate_total_size, List.map_cons, List.sum_cons]
      omega
    · by_cases h2 : 500 * 1024 * 1024 ≤ i.size
      · simp only [h1, h2, ite_true, ite_false, SizeCategories.total_size,
          calculate_total_size, List.map_cons, List.sum_cons]
        omega
      · by_cases h3 : 100 * 1024 * 1024 ≤ i.size
        · simp only [h1, h2, h3, ite_true, ite_false,
            SizeCategories.total_size, calculate_total_size, List.map_cons,
            List.sum_cons]
          omega
        · simp only [h1, h2, h3, ite_false, SizeCategories.total_size,
            calculate_total_size, List.map_cons, List.sum_cons]
          omega

theorem gbsc_perm (items : List LargeFileItem) :
    List.Perm
      ((group_by_size_category items).huge ++
        (group_by_size_category items).very_large ++
        (group_by_size_category items).large ++
        (group_by_size_category items).medium) items := by
  induction items with
  | nil => rfl
  | cons i rest ih =>
    rw [group_by_size_category]
    have hmid : ∀ (l1 l2 : List LargeFileItem),
        List.Perm (l1 ++ i :: l2) (i :: (l1 ++ l2)) :=
      fun l1 l2 => List.perm_middle
    by_cases h1 : 1024 * 1024 * 1024 ≤ i.size
    · simp only [h1, ite_true]
      refine List.Perm.trans ?_ (List.Perm.cons i ih)
      simp [List.append_assoc]
    · by_cases h2 : 500 * 1024 * 1024 ≤ i.size
      · simp only [h1, h2, ite_true, ite_false]
        refine List.Perm.trans ?_ (List.Perm.cons i ih)
        have he : (group_by_size_category rest).huge ++
            (i :: (group_by_size_category rest).very_large) ++
            (group_by_size_category rest).large ++
            (group_by_size_category rest).medium =
            (group_by_size_category rest).huge ++
              i :: ((group_by_size_category rest).very_large ++
                (group_by_size_category rest).large ++
                (group_by_size_category rest).medium) := by
          simp [List.append_assoc]
        rw [he]
        refine List.Perm.trans (hmid _ _) ?_
        apply List.Perm.cons
        simp [List.append_assoc]
      · by_cases h3 : 100 * 1024 * 1024 ≤ i.size
        · simp only [h1, h2, h3, ite_true, ite_false]
          refine List.Perm.trans ?_ (List.Perm.cons i ih)
          have he : (group_by_size_category rest).huge ++
              (group_by_size_category rest).very_large ++
              (i :: (group_by_size_category rest).large) ++
              (group_by_size_category rest).medium =
              ((group_by_size_category rest).huge ++
                (group_by_size_category rest).very_large) ++
                i :: ((group_by_size_category rest).large ++
                  (group_by_size_category rest).medium) := by
            simp [List.append_assoc]
          rw [he]
          refine List.Perm.trans (hmid _ _) ?_
          apply List.Perm.cons
          simp [List.append_assoc]
        · simp only [h1, h2, h3, ite_false]
          refine List.Perm.trans ?_ (List.Perm.cons i ih)
          have he : (group_by_size_category rest).huge ++
              (group_by_size_category rest).very_large ++
              (group_by_size_category rest).large ++
              (i :: (group_by_size_category rest).medium) =
              ((group_by_size_category rest).huge ++
                (group_by_size_category rest).very_large ++
                (group_by_size_category rest).large) ++
                i :: (group_by_size_category rest).medium := by
            simp [List.append_assoc]
          rw [he]
          exact hmid _ _

theorem gbsc_huge_mem (items : List LargeFileItem) :
    ∀ i ∈ (group_by_size_category items).huge,
      1024 * 1024 * 1024 ≤ i.size := by
  induction items with
  | nil => intro i h; cases h
  | cons j rest ih =>
    intro i hi
    rw [group_by_size_category] at hi
    by_cases h1 : 1024 * 1024 * 1024 ≤ j.size
    · simp only [h1, ite_true] at hi
      rcases List.mem_cons.mp hi with h | h
      · exact h ▸ h1
      · exact ih i h
    · by_cases h2 : 500 * 1024 * 1024 ≤ j.size
      · simp only [h1, h2, ite_true, ite_false] at hi
        exact ih i hi
      · by_cases h3 : 100 * 1024 * 1024 ≤ j.size
        · simp only [h1, h2, h3, ite_true, ite_false] at hi
          exact ih i hi
        · simp only [h1, h2, h3, ite_false] at hi
          exact ih i hi

theorem gbsc_very_large_mem (items : List LargeFileItem) :
    ∀ i ∈ (group_by_size_category items).very_large,
      500 * 1024 * 1024 ≤ i.size ∧ i.size < 1024 * 1024 * 1024 := by
  induction items with
  | nil => intro i h; cases h
  | cons j rest ih =>
    intro i hi
    rw [group_by_size_category] at hi
    by_cases h1 : 1024 * 1024 * 1024 ≤ j.size
    · simp only [h1, ite_true] at hi
      exact ih i hi
    · by_cases h2 : 500 * 1024 * 1024 ≤ j.size
      · simp only [h1, h2, ite_true, ite_false] at hi
        rcases List.mem_cons.mp hi with h | h
        · subst h
          exact ⟨h2, Nat.lt_of_not_le h1⟩
        · exact ih i h
      · by_cases h3 : 100 * 1024 * 1024 ≤ j.size
        · simp only [h1, h2, h3, ite_true, ite_false] at hi
          exact ih i hi
        · simp only [h1, h2, h3, ite_false] at hi
          exact ih i hi

theorem gbsc_large_mem (items : List LargeFileItem) :
    ∀ i ∈ (group_by_size_category items).large,
      100 * 1024 * 1024 ≤ i.size ∧ i.size < 500 * 1024 * 1024 := by
  induction items with
  | nil => intro i h; cases h
  | cons j rest ih =>
    intro i hi
    rw [group_by_size_category] at hi
    by_cases h1 : 1024 * 1024 * 1024 ≤ j.size
    · simp only [h1, ite_true] at hi
      exact ih i hi
    · by_cases h2 : 500 * 1024 * 1024 ≤ j.size
      · simp only [h1, h2, ite_true, ite_false] at hi
        exact ih i hi
      · by_cases h3 : 100 * 1024 * 1024 ≤ j.size
        · simp only [h1, h2, h3, ite_true, ite_false] at hi
          rcases List.mem_cons.mp hi with h | h
          · subst h
            exact ⟨h3, Nat.lt_of_not_le h2⟩
          · exact ih i h
        · simp only [h1, h2, h3, ite_false] at hi
          exact ih i hi

theorem gbsc_medium_mem (items : List LargeFileItem) :
    ∀ i ∈ (group_by_size_category items).medium,
      i.size < 100 * 1024 * 1024 := by
  induction items with
  | nil => intro i h; cases h
  | cons j rest ih =>
    intro i hi
    rw [group_by_size_category] at hi
    by_cases h1 : 1024 * 1024 * 1024 ≤ j.size
    · simp only [h1, ite_true] at hi
      exact ih i hi
    · by_cases h2 : 500 * 1024 * 1024 ≤ j.size
      · simp only [h1, h2, ite_true, ite_false] at hi
        exact ih i hi
      · by_cases h3 : 100 * 1024 * 1024 ≤ j.size
        · simp only [h1, h2, h3, ite_true, ite_false] at hi
          exact ih i hi
        · simp only [h1, h2, h3, ite_false] at hi
          rcases List.mem_cons.mp hi with h | h
          · subst h
            exact Nat.lt_of_not_le h3
          · exact ih i h

/-- Claim C9: group_by_size_category exhaustively partitions its
input into the four size bands: the concatenation of the bands is a
permutation of the input (every item lands in exactly one band), the
bands' total_count equals the input length, their total_size equals
the input's total size, and every band contains only items in its
size range. -/
theorem claim9_size_partition (items : List LargeFileItem) :
    (group_by_size_category items).total_count = items.length ∧
    (group_by_size_category items).total_size =
      calculate_total_size items ∧
    List.Perm
      ((group_by_size_category items).huge ++
        (group_by_size_category items).very_large ++
        (group_by_size_category items).large ++
        (group_by_size_category items).medium) items ∧
    (∀ i ∈ (group_by_size_category items).huge,
      1024 * 1024 * 1024 ≤ i.size) ∧
    (∀ i ∈ (group_by_size_category items).very_large,
      500 * 1024 * 1024 ≤ i.size ∧ i.size < 1024 * 1024 * 1024) ∧
    (∀ i ∈ (group_by_size_category items).large,
      100 * 1024 * 1024 ≤ i.size ∧ i.size < 500 * 1024 * 1024) ∧
    (∀ i ∈ (group_by_size_category items).medium,
      i.size < 100 * 1024 * 1024) :=
  ⟨gbsc_total_count items, gbsc_total_size items, gbsc_perm items,
    gbsc_huge_mem items, gbsc_very_large_mem items, gbsc_large_mem items,
    gbsc_medium_mem items⟩

/-! ### Cleanup scanner theorems -/

theorem mem_scan_path (p : Path) (t : FsTree) (category : CleanupCategory) :
    ∀ item ∈ scan_path p t category,
      100 * 1024 < item.size ∧ item.category = category ∧
      item.size = (((scan_path_walk p t 5).filter
        (fun e => decide ((e.1, e.2.1) = (item.path, item.modified)))).map
        (fun e => e.2.2)).sum := by
  intro item hitem
  simp only [scan_path] at hitem
  rcases List.mem_filterMap.mp hitem with ⟨g, hg, heq⟩
  obtain ⟨⟨kp, km⟩, sizes⟩ := g
  by_cases hth : 100 * 1024 < sizes.sum
  · rw [if_pos hth] at heq
    injection heq with heq
    have hchar := group_eq_findValues hg
    refine ⟨?_, ?_, ?_⟩
    · rw [← heq]
      exact hth
    · rw [← heq]
    · rw [← heq]
      show sizes.sum = (((scan_path_walk p t 5).filter
        (fun e => decide ((e.1, e.2.1) = (kp, km)))).map
        (fun e => e.2.2)).sum
      rw [hchar, List.filter_map, List.map_map]
      rfl
  · rw [if_neg hth] at heq
    cases heq

theorem mem_fold_scan_dirs (w : CleanupWorld) (cat : CleanupCategory)
    (dirs : List Path) :
    ∀ item ∈ dirs.foldr (fun d acc =>
      match assocLookup d w.roots with
      | some t => scan_path d t cat ++ acc
      | none => acc) [],
      ∃ d t, item ∈ scan_path d t cat := by
  induction dirs with
  | nil => intro item h; cases h
  | cons d dirs ih =>
    intro item h
    rw [List.foldr_cons] at h
    cases hl : assocLookup d w.roots with
    | none =>
      rw [hl] at h
      exact ih item h
    | some t =>
      rw [hl] at h
      rcases List.mem_append.mp h with h1 | h1
      · exact ⟨d, t, h1⟩
      · exact ih item h1

/-- Counterexample to C8 as stated: with all category scans empty and
the user profile root itself present (holding a directory well above
the threshold), scan_all returns nothing - the fallback scans
Downloads, Documents, Desktop and home/Library, never the profile
root, although a scan of the profile root would produce an item. -/
theorem claim8_fallback_counterexample :
    scan_all linux_category_paths
      ⟨some ("/home/u".toList),
        [(("/home/u".toList),
          .dir "u" 0 0 [.dir "big" 0 9 [.file "f" 200000]])]⟩ = [] ∧
    scan_path ("/home/u".toList)
      (.dir "u" 0 0 [.dir "big" 0 9 [.file "f" 200000]]) .userCaches ≠
      [] ∧
    ("/home/u".toList) ∉ fallback_dirs ("/home/u".toList) ∧
    joinPath ("/home/u".toList) ("Library".toList) ∈
      fallback_dirs ("/home/u".toList) := by
  refine ⟨by decide, by decide, by decide, by decide⟩

/-- Claim C8 (amended): scan_path emits an item only for a directory
whose accumulated file size (files grouped by immediate parent over
the depth-5 walk) exceeds 100 KiB, the item's size being exactly that
accumulated sum; and when all category scans are empty, scan_all
falls back to scanning Downloads, Documents, Desktop and the Library
subdirectory of home (not the profile root), every fallback item
tagged user-cache. -/
theorem claim8_cleanup_threshold_fallback :
    (∀ (p : Path) (t : FsTree) (category : CleanupCategory),
      ∀ item ∈ scan_path p t category,
        100 * 1024 < item.size ∧ item.category = category ∧
        item.size = (((scan_path_walk p t 5).filter
          (fun e => decide ((e.1, e.2.1) = (item.path, item.modified)))).map
          (fun e => e.2.2)).sum) ∧
    (∀ (catPaths : Option Path → CleanupCategory → List Path)
        (w : CleanupWorld) (home : Path),
      w.home = some home →
      CleanupCategory.all.foldr
        (fun c acc => scan_category catPaths w c ++ acc) [] = [] →
      scan_all catPaths w =
        (fallback_dirs home).foldr (fun d acc =>
          match assocLookup d w.roots with
          | some t => scan_path d t .userCaches ++ acc
          | none => acc) [] ∧
      ∀ item ∈ scan_all catPaths w, item.category = .userCaches) := by
  constructor
  · exact mem_scan_path
  · intro catPaths w home hh hempty
    have hfall : scan_all catPaths w =
        (fallback_dirs home).foldr (fun d acc =>
          match assocLookup d w.roots with
          | some t => scan_path d t .userCaches ++ acc
          | none => acc) [] := by
      rw [scan_all, hempty, hh]
      rfl
    refine ⟨hfall, ?_⟩
    intro item hitem
    rw [hfall] at hitem
    rcases mem_fold_scan_dirs w .userCaches (fallback_dirs home)
      item hitem with ⟨d, t, hmem⟩
    exact (mem_scan_path d t .userCaches item hmem).2.1

/-- Witness for C8: a 200001-byte directory is emitted above the
threshold, and a fallback item from home/Library is tagged
user-cache. -/
theorem claim8_cleanup_threshold_fallback_witness :
    100 * 1024 <
      (⟨("/c".toList), 200001, .userCaches, 5, false⟩ :
        CleanableItem).size ∧
    (⟨("/home/u/Library/c".toList), 200000, .userCaches, 5, false⟩ :
      CleanableItem).category = CleanupCategory.userCaches :=
  ⟨(claim8_cleanup_threshold_fallback.1 ("/c".toList)
      (.dir "c" 0 5 [.file "x" 200000, .file "y" 1]) .userCaches
      ⟨("/c".toList), 200001, .userCaches, 5, false⟩ (by decide)).1,
    (claim8_cleanup_threshold_fallback.2 linux_category_paths
      ⟨some ("/home/u".toList),
        [(joinPath ("/home/u".toList) ("Library".toList),
          .dir "Library" 0 3 [.dir "c" 0 5 [.file "x" 200000]])]⟩
      ("/home/u".toList) rfl (by decide)).2
      ⟨("/home/u/Library/c".toList), 200000, .userCaches, 5, false⟩
      (by decide)⟩

/-! ### Treemap theorems -/

theorem mem_scan_children_at_cap (p : Path) (curDepth maxDepth : Nat)
    (hcap : maxDepth ≤ curDepth) (entries : List FsTree) :
    ∀ e ∈ entries, ∀ (n' : String) (ml' : Nat) (mt' : Int)
      (es : List FsTree), e = FsTree.dir n' ml' mt' es →
      FsTree.isHiddenName e = false →
      (⟨joinPath p n'.toList, n', quick_dir_size e, [], false⟩ :
        TreeMapItem) ∈ scan_children p curDepth maxDepth entries := by
  induction entries with
  | nil => intro e he; cases he
  | cons e0 rest ih =>
    intro e he n' ml' mt' es heq hhid
    have hnl : ¬ curDepth < maxDepth := by omega
    rcases List.mem_cons.mp he with h1 | h1
    · subst h1
      subst heq
      rw [scan_children.eq_def]
      simp only [hhid, Bool.false_eq_true, if_neg, not_false_eq_true,
        ite_false, hnl]
      exact List.mem_cons_self _ _
    · have hmem := ih e h1 n' ml' mt' es heq hhid
      rw [scan_children.eq_def]
      by_cases hh : FsTree.isHiddenName e0
      · simp only [hh, ite_true]
        exact hmem
      · simp only [hh, Bool.false_eq_true, not_false_eq_true, ite_false]
        cases e0 with
        | file a b => exact List.mem_cons_of_mem _ hmem
        | dir a b c d =>
          by_cases hlt : curDepth < maxDepth
          · simp only [hlt, ite_true]
            exact List.mem_cons_of_mem _ hmem
          · simp only [hlt, ite_false]
            exact List.mem_cons_of_mem _ hmem

/-- Claim C5: a directory node built by scan_directory has size equal
to the exact sum of its children's sizes, its children sorted by size
descending; and at the depth cap every non-hidden directory entry
appears among the children as a leaf (no children of its own) whose
size is the one-level quick_dir_size sum. -/
theorem claim5_treemap_sizes (p : Path) (curDepth maxDepth : Nat)
    (n : String) (ml : Nat) (mt : Int) (entries : List FsTree) :
    ((scan_directory p curDepth maxDepth (.dir n ml mt entries)).size =
      ((scan_directory p curDepth maxDepth
        (.dir n ml mt entries)).children.map (fun c => c.size)).sum) ∧
    List.Pairwise (fun a b => b.size ≤ a.size)
      (scan_directory p curDepth maxDepth (.dir n ml mt entries)).children ∧
    (maxDepth ≤ curDepth →
      ∀ e ∈ entries, ∀ (n' : String) (ml' : Nat) (mt' : Int)
        (es : List FsTree), e = FsTree.dir n' ml' mt' es →
        FsTree.isHiddenName e = false →
        (⟨joinPath p n'.toList, n', quick_dir_size e, [], false⟩ :
          TreeMapItem) ∈
          (scan_directory p curDepth maxDepth
            (.dir n ml mt entries)).children) := by
  have hnode : scan_directory p curDepth maxDepth (.dir n ml mt entries) =
      ⟨p, n,
        ((scan_children p curDepth maxDepth entries).map
          (fun c => c.size)).sum,
        sortBy (fun a b => decide (b.size ≤ a.size))
          (scan_children p curDepth maxDepth entries), false⟩ := rfl
  refine ⟨?_, ?_, ?_⟩
  · rw [hnode]
    show ((scan_children p curDepth maxDepth entries).map
        (fun c => c.size)).sum =
      ((sortBy (fun a b => decide (b.size ≤ a.size))
        (scan_children p curDepth maxDepth entries)).map
        (fun c => c.size)).sum
    exact (List.Perm.sum_eq (List.Perm.map _
      (sortBy_perm _ (scan_children p curDepth maxDepth entries)))).symm
  · rw [hnode]
    have hp := pairwise_sortBy
      (fun a b : TreeMapItem => decide (b.size ≤ a.size))
      (by
        intro (a : TreeMapItem) (b : TreeMapItem)
        rcases Nat.le_total b.size a.size with h | h
        · left; simpa using h
        · right; simpa using h)
      (by
        intro (a : TreeMapItem) (b : TreeMapItem) (c : TreeMapItem) h1 h2
        simp only [decide_eq_true_eq] at h1 h2 ⊢
        omega)
      (scan_children p curDepth maxDepth entries)
    exact List.Pairwise.imp (by intro a b h; simpa using h) hp
  · intro hcap e he n' ml' mt' es heq hhid
    rw [hnode]
    show _ ∈ sortBy (fun a b => decide (b.size ≤ a.size))
      (scan_children p curDepth maxDepth entries)
    rw [mem_sortBy]
    exact mem_scan_children_at_cap p curDepth maxDepth hcap entries
      e he n' ml' mt' es heq hhid

/-- Witness for C5 at the depth cap (current depth 3, cap 3): the
subdirectory appears as a childless leaf sized by quick_dir_size, and
the node's size is the sum of its children's sizes. -/
theorem claim5_treemap_sizes_witness :
    (scan_directory ("/r".toList) 3 3
      (.dir "r" 4096 0 [.dir "d" 10 0 [.file "b" 7]])).size =
      ((scan_directory ("/r".toList) 3 3
        (.dir "r" 4096 0 [.dir "d" 10 0 [.file "b" 7]])).children.map
        (fun c => c.size)).sum ∧
    (⟨joinPath ("/r".toList) ("d".toList), "d",
      quick_dir_size (.dir "d" 10 0 [.file "b" 7]), [], false⟩ :
      TreeMapItem) ∈
      (scan_directory ("/r".toList) 3 3
        (.dir "r" 4096 0 [.dir "d" 10 0 [.file "b" 7]])).children :=
  ⟨(claim5_treemap_sizes ("/r".toList) 3 3 "r" 4096 0
      [.dir "d" 10 0 [.file "b" 7]]).1,
    (claim5_treemap_sizes ("/r".toList) 3 3 "r" 4096 0
      [.dir "d" 10 0 [.file "b" 7]]).2.2 (by decide)
      (.dir "d" 10 0 [.file "b" 7]) (by constructor) "d" 10 0
      [.file "b" 7] rfl (by decide)⟩

/-! ### Duplicate scanner theorems -/

theorem mem_foldr_append {κ γ : Type _} (L : List (κ × List γ)) (x : γ) :
    x ∈ L.foldr (fun g acc => g.2 ++ acc) [] ↔ ∃ g ∈ L, x ∈ g.2 := by
  induction L with
  | nil => simp
  | cons g L ih => simp [ih]

theorem mem_foldr_map_append {κ β γ : Type _} (L : List (κ × List β))
    (F : κ × List β → β → γ) (x : γ) :
    x ∈ L.foldr (fun g acc => g.2.map (F g) ++ acc) [] ↔
      ∃ g ∈ L, ∃ v ∈ g.2, F g v = x := by
  induction L with
  | nil => simp
  | cons g L ih => simp [ih]

theorem mem_size_group (sc : DuplicateScanner) (walk : List DupFsFile)
    {s : Nat} {fs : List DupFsFile} (h : (s, fs) ∈ size_groups_of sc walk)
    {f : DupFsFile} (hf : f ∈ fs) :
    f ∈ surviving_files sc walk ∧ f.size = s := by
  rw [size_groups_of] at h
  have hmem := mem_of_mem_group h hf
  rcases List.mem_map.mp hmem with ⟨g, hg, heq⟩
  have h1 : g.size = s := congrArg Prod.fst heq
  have h2 : g = f := congrArg Prod.snd heq
  subst h2
  exact ⟨hg, h1⟩

theorem hashed_files_subset (sc : DuplicateScanner) (walk : List DupFsFile) :
    ∀ f ∈ hashed_files sc walk, f ∈ surviving_files sc walk := by
  intro f hf
  rw [hashed_files] at hf
  rcases (mem_foldr_append _ f).mp hf with ⟨g, hg, hfg⟩
  have hg' := (List.mem_filter.mp hg).1
  obtain ⟨k, vs⟩ := g
  exact (mem_size_group sc walk hg' hfg).1

theorem mem_hashed_pairs (hash : List Nat → List Nat)
    (sc : DuplicateScanner) (walk : List DupFsFile) {hv : List Nat}
    {df : DuplicateFile} (h : (hv, df) ∈ hashed_pairs hash sc walk) :
    ∃ f, f ∈ hashed_files sc walk ∧ hash f.content = hv ∧
      df.path = f.path ∧ df.size = f.size ∧ df.modified = f.mtime := by
  rw [hashed_pairs] at h
  rcases (mem_foldr_map_append _ _ _).mp h with ⟨g, hg, f, hf, heq⟩
  have h1 : hash f.content = hv := congrArg Prod.fst heq
  have h2 : (⟨f.path, g.1, f.mtime, false⟩ : DuplicateFile) = df :=
    congrArg Prod.snd heq
  have hg' := (List.mem_filter.mp hg).1
  obtain ⟨k, vs⟩ := g
  have hsz := mem_size_group sc walk hg' hf
  refine ⟨f, ?_, h1, ?_, ?_, ?_⟩
  · rw [hashed_files]
    exact (mem_foldr_append _ f).mpr ⟨(k, vs), hg, hf⟩
  · rw [← h2]
  · rw [← h2]
    exact hsz.2.symm
  · rw [← h2]

theorem scan_duplicates_member_shape (sc : DuplicateScanner)
    (hash : List Nat → List Nat) (walk : List DupFsFile)
    {g : DuplicateGroup} (hg : g ∈ scan_duplicates sc hash walk) :
    ∃ k vs, (k, vs) ∈ hash_groups_of hash sc walk ∧ 2 ≤ vs.length ∧
      g = make_dup_group (k, vs) := by
  rw [scan_duplicates, mem_sortBy] at hg
  rcases List.mem_map.mp hg with ⟨p, hp, heq⟩
  rcases List.mem_filter.mp hp with ⟨hp1, hp2⟩
  obtain ⟨k, vs⟩ := p
  exact ⟨k, vs, hp1, by simpa using hp2, heq.symm⟩

theorem make_dup_group_total (g : List Nat × List DuplicateFile) :
    (make_dup_group g).total_size =
      ((make_dup_group g).files.map (fun f => f.size)).sum := rfl

theorem make_dup_group_wasted {g : List Nat × List DuplicateFile}
    {f0 : DuplicateFile} {rest : List DuplicateFile}
    (h : (make_dup_group g).files = f0 :: rest) :
    (make_dup_group g).duplicate_size =
      (make_dup_group g).total_size - f0.size := by
  have hfiles :
      sortBy (fun a b : DuplicateFile => decide (a.modified ≤ b.modified))
        g.2 = f0 :: rest := h
  have htot : (make_dup_group g).total_size =
      ((sortBy (fun a b : DuplicateFile => decide (a.modified ≤ b.modified))
        g.2).map (fun v : DuplicateFile => v.size)).sum := rfl
  rw [htot]
  show (match sortBy
      (fun a b : DuplicateFile => decide (a.modified ≤ b.modified)) g.2 with
    | [] => 0
    | f :: _ =>
      ((sortBy (fun a b : DuplicateFile => decide (a.modified ≤ b.modified))
        g.2).map (fun v : DuplicateFile => v.size)).sum - f.size) = _
  rw [hfiles]

theorem sum_map_const_of_mem {β : Type _} (F : β → Nat) (s : Nat)
    (l : List β) (h : ∀ x ∈ l, F x = s) :
    (l.map F).sum = l.length * s := by
  induction l with
  | nil => simp
  | cons x l ih =>
    simp only [List.map_cons, List.sum_cons, List.length_cons]
    rw [h x (List.mem_cons_self _ _),
      ih (fun y hy => h y (List.mem_cons_of_mem _ hy))]
    ring

theorem scan_duplicates_member_provenance (sc : DuplicateScanner)
    (hash : List Nat → List Nat) (walk : List DupFsFile)
    {g : DuplicateGroup} (hg : g ∈ scan_duplicates sc hash walk)
    {m : DuplicateFile} (hm : m ∈ g.files) :
    ∃ f, f ∈ hashed_files sc walk ∧ hash f.content = g.hash ∧
      m.path = f.path ∧ m.size = f.size ∧ m.modified = f.mtime := by
  rcases scan_duplicates_member_shape sc hash walk hg with
    ⟨k, vs, hmem, hlen, hgeq⟩
  subst hgeq
  rw [hash_groups_of] at hmem
  have hm' : m ∈ vs := by
    rw [show (make_dup_group (k, vs)).files =
        sortBy (fun a b => decide (a.modified ≤ b.modified)) vs from rfl,
      mem_sortBy] at hm
    exact hm
  exact mem_hashed_pairs hash sc walk (mem_of_mem_group hmem hm')

/-- Claim C3: every group returned by DuplicateScanner::scan has at
least two members; every member stems from a walked file with the
group's content hash; all members have identical byte size (given
that the hash is collision-free on the walked contents); total_size
is the member count times the per-file size; duplicate_size is
total_size minus the size of one member; and members are sorted
oldest to newest by modification time. -/
theorem claim3_duplicate_group_invariants (sc : DuplicateScanner)
    (hash : List Nat → List Nat) (walk : List DupFsFile)
    (hinj : ∀ f1 ∈ walk, ∀ f2 ∈ walk,
      hash f1.content = hash f2.content → f1.content = f2.content) :
    ∀ g ∈ scan_duplicates sc hash walk,
      2 ≤ g.files.length ∧
      (∀ m ∈ g.files, ∃ f ∈ walk, f.path = m.path ∧
        hash f.content = g.hash ∧ m.size = f.content.length) ∧
      (∀ m1 ∈ g.files, ∀ m2 ∈ g.files, m1.size = m2.size) ∧
      (∀ m ∈ g.files, g.total_size = g.files.length * m.size) ∧
      (∀ m ∈ g.files, g.duplicate_size = g.total_size - m.size) ∧
      List.Pairwise (fun a b => a.modified ≤ b.modified) g.files := by
  intro g hg
  have hprovW : ∀ m ∈ g.files, ∃ f, f ∈ walk ∧
      hash f.content = g.hash ∧ m.path = f.path ∧
      m.size = f.content.length ∧ m.modified = f.mtime := by
    intro m hm
    rcases scan_duplicates_member_provenance sc hash walk hg hm with
      ⟨f, hf, h1, h2, h3, h4⟩
    have hfw : f ∈ walk :=
      (List.mem_filter.mp (hashed_files_subset sc walk f hf)).1
    exact ⟨f, hfw, h1, h2, h3, h4⟩
  have hsizes : ∀ m1 ∈ g.files, ∀ m2 ∈ g.files, m1.size = m2.size := by
    intro m1 h1 m2 h2
    rcases hprovW m1 h1 with ⟨f1, hf1, hh1, _, hs1, _⟩
    rcases hprovW m2 h2 with ⟨f2, hf2, hh2, _, hs2, _⟩
    have hc : f1.content = f2.content :=
      hinj f1 hf1 f2 hf2 (by rw [hh1, hh2])
    rw [hs1, hs2, hc]
  rcases scan_duplicates_member_shape sc hash walk hg with
    ⟨k, vs, hmem, hlen, hgeq⟩
  have hlen2 : 2 ≤ g.files.length := by
    rw [hgeq, show (make_dup_group (k, vs)).files =
        sortBy (fun a b => decide (a.modified ≤ b.modified)) vs from rfl,
      length_sortBy]
    exact hlen
  refine ⟨hlen2, ?_, hsizes, ?_, ?_, ?_⟩
  · intro m hm
    rcases hprovW m hm with ⟨f, hfw, hh, hp, hs, _⟩
    exact ⟨f, hfw, hp.symm, hh, hs⟩
  · intro m hm
    have htot : g.total_size = (g.files.map (fun f => f.size)).sum := by
      rw [hgeq]
      exact make_dup_group_total (k, vs)
    rw [htot, sum_map_const_of_mem (fun f => f.size) m.size g.files
      (fun x hx => hsizes x hx m hm)]
  · intro m hm
    obtain ⟨f0, rest, hcons⟩ : ∃ f0 rest, g.files = f0 :: rest := by
      cases hfe : g.files with
      | nil => rw [hfe] at hlen2; simp at hlen2
      | cons a l => exact ⟨a, l, rfl⟩
    have hf0 : f0 ∈ g.files := by
      rw [hcons]; exact List.mem_cons_self _ _
    have hw : g.duplicate_size = g.total_size - f0.size := by
      rw [hgeq] at hcons ⊢
      exact make_dup_group_wasted hcons
    rw [hw, hsizes f0 hf0 m hm]
  · rw [hgeq, show (make_dup_group (k, vs)).files =
      sortBy (fun a b => decide (a.modified ≤ b.modified)) vs from rfl]
    have hp := pairwise_sortBy
      (fun a b : DuplicateFile => decide (a.modified ≤ b.modified))
      (by
        intro (a : DuplicateFile) (b : DuplicateFile)
        rcases Int.le_total a.modified b.modified with h | h
        · left; simpa using h
        · right; simpa using h)
      (by
        intro (a : DuplicateFile) (b : DuplicateFile) (c : DuplicateFile) h1 h2
        simp only [decide_eq_true_eq] at h1 h2 ⊢
        omega)
      vs
    exact List.Pairwise.imp (by intro a b h; simpa using h) hp

/-- Witness for C3 at two identical 2-byte files: the single group
has two members and total_size = 2 x member size. -/
theorem claim3_duplicate_group_invariants_witness :
    2 ≤ (⟨[1, 2],
      [⟨("/b".toList), 2, 3, false⟩, ⟨("/a".toList), 2, 5, false⟩],
      4, 2⟩ : DuplicateGroup).files.length ∧
    (⟨[1, 2],
      [⟨("/b".toList), 2, 3, false⟩, ⟨("/a".toList), 2, 5, false⟩],
      4, 2⟩ : DuplicateGroup).total_size =
      (⟨[1, 2],
        [⟨("/b".toList), 2, 3, false⟩, ⟨("/a".toList), 2, 5, false⟩],
        4, 2⟩ : DuplicateGroup).files.length *
        (⟨("/b".toList), 2, 3, false⟩ : DuplicateFile).size :=
  ⟨(claim3_duplicate_group_invariants ⟨1⟩ (fun c => c)
      [⟨("/a".toList), [1, 2], 5⟩, ⟨("/b".toList), [1, 2], 3⟩]
      (by decide)
      ⟨[1, 2],
        [⟨("/b".toList), 2, 3, false⟩, ⟨("/a".toList), 2, 5, false⟩],
        4, 2⟩ (by decide)).1,
    (claim3_duplicate_group_invariants ⟨1⟩ (fun c => c)
      [⟨("/a".toList), [1, 2], 5⟩, ⟨("/b".toList), [1, 2], 3⟩]
      (by decide)
      ⟨[1, 2],
        [⟨("/b".toList), 2, 3, false⟩, ⟨("/a".toList), 2, 5, false⟩],
        4, 2⟩ (by decide)).2.2.2.1
      ⟨("/b".toList), 2, 3, false⟩ (by decide)⟩

/-- Claim C4: a surviving file whose byte size is unique among the
surviving files is never hashed and (when surviving paths are
distinct) never appears in any output group; and the returned group
list is sorted by duplicate_size descending. -/
theorem claim4_two_phase_unique_size (sc : DuplicateScanner)
    (hash : List Nat → List Nat) (walk : List DupFsFile) :
    (∀ f ∈ surviving_files sc walk,
      ((surviving_files sc walk).filter
        (fun x => decide (x.size = f.size))).length = 1 →
      f ∉ hashed_files sc walk ∧
      (((surviving_files sc walk).map (fun x => x.path)).Nodup →
        ∀ g ∈ scan_duplicates sc hash walk, ∀ m ∈ g.files,
          m.path ≠ f.path)) ∧
    List.Pairwise (fun a b => b.duplicate_size ≤ a.duplicate_size)
      (scan_duplicates sc hash walk) := by
  constructor
  · intro f hf huniq
    have hnotin : f ∉ hashed_files sc walk := by
      intro hcontra
      rw [hashed_files] at hcontra
      rcases (mem_foldr_append _ f).mp hcontra with ⟨g, hgmem, hfg⟩
      rcases List.mem_filter.mp hgmem with ⟨hgmem2, hglen⟩
      obtain ⟨k, vs⟩ := g
      have hks : f.size = k := (mem_size_group sc walk hgmem2 hfg).2
      rw [size_groups_of] at hgmem2
      have hchar := group_eq_findValues hgmem2
      have hpred : ((fun q : Nat × DupFsFile => decide (q.1 = k)) ∘
          fun x : DupFsFile => (x.size, x)) =
          (fun x : DupFsFile => decide (x.size = f.size)) := by
        funext x
        simp only [Function.comp]
        rw [hks]
      have hvslen : vs.length = 1 := by
        rw [hchar, List.length_map, List.filter_map, List.length_map,
          hpred, huniq]
      have : 2 ≤ vs.length := by simpa using hglen
      omega
    refine ⟨hnotin, ?_⟩
    intro hnodup g hg m hm hpeq
    rcases scan_duplicates_member_provenance sc hash walk hg hm with
      ⟨f', hf', _, hp, _, _⟩
    have hfs' : f' ∈ surviving_files sc walk :=
      hashed_files_subset sc walk f' hf'
    have heq : f' = f := by
      apply List.inj_on_of_nodup_map hnodup hfs' hf
      rw [← hp]
      exact hpeq
    rw [heq] at hf'
    exact hnotin hf'
  · rw [scan_duplicates]
    have hp := pairwise_sortBy
      (fun a b : DuplicateGroup => decide (b.duplicate_size ≤ a.duplicate_size))
      (by
        intro a b
        rcases Nat.le_total b.duplicate_size a.duplicate_size with h | h
        · left; simpa using h
        · right; simpa using h)
      (by
        intro a b c h1 h2
        simp only [decide_eq_true_eq] at h1 h2 ⊢
        omega)
      (((hash_groups_of hash sc walk).filter
        (fun g => decide (2 ≤ g.2.length))).map make_dup_group)
    exact List.Pairwise.imp (by intro a b h; simpa using h) hp

/-- Witness for C4: with files of sizes 2, 2 and 1, the size-1 file
is never hashed and the group list is sorted by wasted size. -/
theorem claim4_two_phase_unique_size_witness :
    (⟨("/c".toList), [9], 7⟩ : DupFsFile) ∉
      hashed_files ⟨1⟩
        [⟨("/a".toList), [1, 2], 5⟩, ⟨("/b".toList), [1, 2], 3⟩,
         ⟨("/c".toList), [9], 7⟩] ∧
    List.Pairwise (fun a b => b.duplicate_size ≤ a.duplicate_size)
      (scan_duplicates ⟨1⟩ (fun c => c)
        [⟨("/a".toList), [1, 2], 5⟩, ⟨("/b".toList), [1, 2], 3⟩,
         ⟨("/c".toList), [9], 7⟩]) :=
  ⟨((claim4_two_phase_unique_size ⟨1⟩ (fun c => c)
      [⟨("/a".toList), [1, 2], 5⟩, ⟨("/b".toList), [1, 2], 3⟩,
       ⟨("/c".toList), [9], 7⟩]).1 ⟨("/c".toList), [9], 7⟩
      (by decide) (by decide)).1,
    (claim4_two_phase_unique_size ⟨1⟩ (fun c => c)
      [⟨("/a".toList), [1, 2], 5⟩, ⟨("/b".toList), [1, 2], 3⟩,
       ⟨("/c".toList), [9], 7⟩]).2⟩

/-- Witness for C9 at a four-item list with one item per band. -/
theorem claim9_size_partition_witness :
    (group_by_size_category
      [⟨("/a".toList), 2000000000, 0, 0, 0, false⟩,
       ⟨("/b".toList), 600000000, 0, 0, 0, false⟩,
       ⟨("/c".toList), 200000000, 0, 0, 0, false⟩,
       ⟨("/d".toList), 5, 0, 0, 0, false⟩]).total_count = 4 ∧
    1024 * 1024 * 1024 ≤
      (⟨("/a".toList), 2000000000, 0, 0, 0, false⟩ : LargeFileItem).size :=
  ⟨(claim9_size_partition
      [⟨("/a".toList), 2000000000, 0, 0, 0, false⟩,
       ⟨("/b".toList), 600000000, 0, 0, 0, false⟩,
       ⟨("/c".toList), 200000000, 0, 0, 0, false⟩,
       ⟨("/d".toList), 5, 0, 0, 0, false⟩]).1,
    (claim9_size_partition
      [⟨("/a".toList), 2000000000, 0, 0, 0, false⟩,
       ⟨("/b".toList), 600000000, 0, 0, 0, false⟩,
       ⟨("/c".toList), 200000000, 0, 0, 0, false⟩,
       ⟨("/d".toList), 5, 0, 0, 0, false⟩]).2.2.2.1
      ⟨("/a".toList), 2000000000, 0, 0, 0, false⟩ (by decide)⟩

end Surge

